import Mathlib

/-!
Verification of the media scraper (src/media_scraper_app.py) against its
specification.  The Python code is shallowly embedded: strings are lists of
characters, network and filesystem effects are oracle functions, exceptions
are `Except`.  The URL library functions used by the code
(`urllib.parse.urlsplit/urlparse/urljoin`, `os.path.splitext/basename/join`)
are translated from the CPython 3.11 standard library, since the program's
behaviour on a URL is exactly theirs.
-/

namespace Scraper

/-- Decidable equality for `Except`, used to evaluate the model on concrete
inputs. -/
instance {ε α : Type} [DecidableEq ε] [DecidableEq α] : DecidableEq (Except ε α) := fun x y =>
  match x, y with
  | .ok a, .ok b =>
    if h : a = b then isTrue (by rw [h]) else isFalse (by intro he; cases he; exact h rfl)
  | .error a, .error b =>
    if h : a = b then isTrue (by rw [h]) else isFalse (by intro he; cases he; exact h rfl)
  | .ok _, .error _ => isFalse (by intro h; cases h)
  | .error _, .ok _ => isFalse (by intro h; cases h)

/-- Strings are modelled as lists of characters. -/
abbrev Str := List Char

/-- Shorthand to turn a Lean string literal into the model's string type. -/
def str (s : String) : Str := s.toList

/-- Characters stripped from the left of a URL by `urlsplit`
(`_WHATWG_C0_CONTROL_OR_SPACE`: code points up to 0x20). -/
def isC0OrSpace (c : Char) : Bool := decide (c ≤ ' ')

/-- Characters removed everywhere in a URL by `urlsplit`
(`_UNSAFE_URL_BYTES_TO_REMOVE`: tab, newline, carriage return). -/
def isUnsafeChar (c : Char) : Bool := c == '\t' || c == '\n' || c == '\r'

/-- Input sanitisation done by `urlsplit`: left-strip C0 controls and spaces,
then remove tab/CR/LF everywhere. -/
def sanitizeUrl (u : Str) : Str :=
  (u.dropWhile isC0OrSpace).filter (fun c => !isUnsafeChar c)

/-- ASCII letter test (`url[0].isascii() and url[0].isalpha()`). -/
def isAsciiAlpha (c : Char) : Bool := ('a' ≤ c && c ≤ 'z') || ('A' ≤ c && c ≤ 'Z')

/-- ASCII digit test. -/
def isDigit (c : Char) : Bool := '0' ≤ c && c ≤ '9'

/-- Membership in `urllib.parse.scheme_chars`
(letters, digits, and the three characters `+`, `-`, `.`). -/
def isSchemeChar (c : Char) : Bool :=
  isAsciiAlpha c || isDigit c || c == '+' || c == '-' || c == '.'

/-- Scheme detection of `urlsplit`: `i = url.find(':')`; the text before the
first colon is a scheme when `i > 0`, its first character is an ASCII letter
and the rest lie in `scheme_chars`.  Returns the lowercased scheme and the
remainder after the colon; `none` means no scheme was recognised. -/
def splitScheme (u : Str) : Option (Str × Str) :=
  let pre := u.takeWhile (fun c => c != ':')
  match u.drop pre.length with
  | [] => none
  | _ :: rest =>
    match pre with
    | [] => none
    | c :: cs =>
      if isAsciiAlpha c && cs.all isSchemeChar then some (pre.map Char.toLower, rest)
      else none

/-- Split at the first occurrence of `c`; when `c` is absent the second
component is empty.  This models `url.split(c, 1)` guarded by `c in url`
(the part after the separator is `''` when the separator is missing). -/
def splitOnceAt (c : Char) (u : Str) : Str × Str :=
  let pre := u.takeWhile (fun x => x != c)
  match u.drop pre.length with
  | [] => (pre, [])
  | _ :: rest => (pre, rest)

/-- Result of `urlsplit`. -/
structure SplitResult where
  scheme : Str
  netloc : Str
  path : Str
  query : Str
  fragment : Str
deriving DecidableEq, Repr

/-- `urllib.parse._splitnetloc` applied after the leading `//`: the netloc
runs until the first of `/`, `?`, `#`. -/
def splitNetloc (u : Str) : Str × Str :=
  let nl := u.takeWhile (fun c => c != '/' && c != '?' && c != '#')
  (nl, u.drop nl.length)

/-- `urllib.parse.urlsplit url dflt` (CPython 3.11, `allow_fragments=True`).
`dflt` is the caller's default scheme (already clean, as in every call the
code makes).  Raises `ValueError` for a netloc with unmatched brackets. -/
def urlsplitL (url dflt : Str) : Except String SplitResult :=
  let u0 := sanitizeUrl url
  let sr := match splitScheme u0 with
    | some (s, rest) => (s, rest)
    | none => (dflt, u0)
  let scheme := sr.1
  let u1 := sr.2
  if u1.take 2 = str "//" then
    let nr := splitNetloc (u1.drop 2)
    let netloc := nr.1
    if (decide ('[' ∈ netloc) && !decide (']' ∈ netloc)) ||
       (decide (']' ∈ netloc) && !decide ('[' ∈ netloc)) then
      .error "Invalid IPv6 URL"
    else
      let fr := splitOnceAt '#' nr.2
      let pq := splitOnceAt '?' fr.1
      .ok ⟨scheme, netloc, pq.1, pq.2, fr.2⟩
  else
    let fr := splitOnceAt '#' u1
    let pq := splitOnceAt '?' fr.1
    .ok ⟨scheme, [], pq.1, pq.2, fr.2⟩

/-- Index of the last occurrence of a character (`str.rfind`), as an
`Option` instead of `-1` for absence. -/
def rfindIdx (c : Char) : Str → Option Nat
  | [] => none
  | x :: xs =>
    match rfindIdx c xs with
    | some n => some (n + 1)
    | none => if x = c then some 0 else none

/-- `urllib.parse.uses_params`. -/
def uses_params : List Str :=
  ["", "ftp", "hdl", "prospero", "http", "imap", "https", "shttp", "rtsp",
   "rtspu", "sip", "sips", "mms", "sftp", "tel"].map String.toList

/-- `urllib.parse._splitparams`: split the parameters after `;` in the last
path segment (callers guard on `;` being present). -/
def splitParams (p : Str) : Str × Str :=
  match rfindIdx '/' p with
  | some s =>
    let seg := p.drop s
    if decide (';' ∈ seg) then
      let sp := splitOnceAt ';' seg
      (p.take s ++ sp.1, sp.2)
    else (p, [])
  | none => splitOnceAt ';' p

/-- Result of `urlparse`. -/
structure ParseResult where
  scheme : Str
  netloc : Str
  path : Str
  params : Str
  query : Str
  fragment : Str
deriving DecidableEq, Repr

/-- `urllib.parse.urlparse url dflt`: `urlsplit` followed by the params
split when the path contains `;` and the scheme uses params. -/
def urlparseL (url dflt : Str) : Except String ParseResult :=
  match urlsplitL url dflt with
  | .error e => .error e
  | .ok r =>
    if decide (';' ∈ r.path) && decide (r.scheme ∈ uses_params) then
      let pp := splitParams r.path
      .ok ⟨r.scheme, r.netloc, pp.1, pp.2, r.query, r.fragment⟩
    else
      .ok ⟨r.scheme, r.netloc, r.path, [], r.query, r.fragment⟩

/-- Extension part of `posixpath.splitext`: the suffix of the path starting
at the last dot, provided that dot lies after the last slash and at least one
character other than a dot stands between them (so the leading dots of a
component never begin an extension); otherwise empty. -/
def splitextExt (p : Str) : Str :=
  match rfindIdx '.' p with
  | none => []
  | some d =>
    let s := match rfindIdx '/' p with
      | none => 0
      | some j => j + 1
    if s ≤ d then
      if ((p.drop s).take (d - s)).any (fun c => c != '.') then p.drop d else []
    else []

/-- The allow-list of `is_media_url`, with the leading dots produced by
`splitext`. -/
def MEDIA_EXTS : List Str :=
  [".png", ".jpg", ".jpeg", ".gif", ".webp", ".svg",
   ".mp4", ".webm", ".ogg", ".mov", ".avi", ".mkv"].map String.toList

/-- `is_media_url` from src/media_scraper_app.py: the lowercased extension of
the URL's path component is in the allow-list.  `Except` carries the
`ValueError` that `urlparse` can raise. -/
def is_media_urlE (url : Str) : Except String Bool :=
  match urlparseL url [] with
  | .error e => .error e
  | .ok r => .ok (decide ((splitextExt r.path).map Char.toLower ∈ MEDIA_EXTS))

/-- The claim's allow-list: bare extension names, without dots. -/
def specMediaNames : List Str :=
  ["png", "jpg", "jpeg", "gif", "webp", "svg",
   "mp4", "webm", "ogg", "mov", "avi", "mkv"].map String.toList

/-- Final path segment: the text after the last slash. -/
def lastSegment (p : Str) : Str :=
  ((p.reverse).takeWhile (fun c => c != '/')).reverse

/-- Modelled from the claim's words for C2: the final extension of a path is
the text after the last dot of its final segment, provided some character
other than a dot precedes that dot within the segment (a name made of leading
dots only, such as `.png`, has no extension, the standard convention). -/
def finalExtension (p : Str) : Option Str :=
  let r := (lastSegment p).reverse
  let pre := r.takeWhile (fun c => c != '.')
  match r.drop pre.length with
  | [] => none
  | _ :: before => if before.any (fun c => c != '.') then some pre.reverse else none

/-- Modelled from claim C2: true iff the final extension of the URL's path
component (query string and fragment ignored by the path extraction),
compared case-insensitively, is one of the twelve allowed names. -/
def spec_is_media (url : Str) : Bool :=
  match urlparseL url [] with
  | .error _ => false
  | .ok r =>
    match finalExtension r.path with
    | none => false
    | some e => decide (e.map Char.toLower ∈ specMediaNames)

/-! ### List helper lemmas -/

theorem takeWhile_eq_self {α : Type} {f : α → Bool} :
    ∀ {l : List α}, (∀ c ∈ l, f c = true) → l.takeWhile f = l := by
  intro l h
  induction l with
  | nil => rfl
  | cons x xs ih =>
    have hx : f x = true := h x (List.mem_cons_self x xs)
    rw [List.takeWhile_cons, if_pos hx, ih (fun c hc => h c (List.mem_cons_of_mem _ hc))]

theorem takeWhile_append_stop {α : Type} {f : α → Bool} {c : α} {ys : List α}
    (hc : f c = false) :
    ∀ {xs : List α}, (∀ x ∈ xs, f x = true) → (xs ++ c :: ys).takeWhile f = xs := by
  intro xs hxs
  induction xs with
  | nil => simp [List.takeWhile_cons, hc]
  | cons a l ih =>
    have ha : f a = true := hxs a (List.mem_cons_self a l)
    rw [List.cons_append, List.takeWhile_cons, if_pos ha,
      ih (fun x hx => hxs x (List.mem_cons_of_mem _ hx))]

theorem mem_of_mem_takeWhile {α : Type} {f : α → Bool} :
    ∀ {l : List α} {x : α}, x ∈ l.takeWhile f → x ∈ l := by
  intro l
  induction l with
  | nil => intro x h; exact absurd h (by simp)
  | cons a t ih =>
    intro x h
    rw [List.takeWhile_cons] at h
    by_cases ha : f a = true
    · rw [if_pos ha] at h
      rcases List.mem_cons.mp h with rfl | h
      · exact List.mem_cons_self _ _
      · exact List.mem_cons_of_mem _ (ih h)
    · rw [if_neg ha] at h; exact absurd h (by simp)

theorem not_mem_of_rfindIdx_none {c : Char} :
    ∀ {p : Str}, rfindIdx c p = none → c ∉ p := by
  intro p
  induction p with
  | nil => intro _; simp
  | cons x xs ih =>
    intro h
    cases hx : rfindIdx c xs with
    | some n => simp [rfindIdx, hx] at h
    | none =>
      simp only [rfindIdx, hx] at h
      by_cases hxc : x = c
      · rw [if_pos hxc] at h; exact absurd h (by simp)
      · intro hmem
        rcases List.mem_cons.mp hmem with h1 | h1
        · exact hxc h1.symm
        · exact ih hx h1

theorem rfindIdx_some_decomp {c : Char} :
    ∀ {p : Str} {d : Nat}, rfindIdx c p = some d →
      ∃ a b : Str, p = a ++ c :: b ∧ c ∉ b ∧ a.length = d := by
  intro p
  induction p with
  | nil => intro d h; simp [rfindIdx] at h
  | cons x xs ih =>
    intro d h
    cases hx : rfindIdx c xs with
    | some n =>
      simp only [rfindIdx, hx] at h
      have hd : n + 1 = d := Option.some.inj h
      obtain ⟨a, b, hab, hnb, hlen⟩ := ih hx
      exact ⟨x :: a, b, by rw [hab, List.cons_append],
        hnb, by simp [List.length_cons, hlen, hd]⟩
    | none =>
      simp only [rfindIdx, hx] at h
      by_cases hxc : x = c
      · rw [if_pos hxc] at h
        have hd : (0 : Nat) = d := Option.some.inj h
        exact ⟨[], xs, by rw [hxc, List.nil_append],
          not_mem_of_rfindIdx_none hx, hd⟩
      · rw [if_neg hxc] at h; exact absurd h (by simp)

theorem lastSegment_of_not_mem {p : Str} (h : '/' ∉ p) : lastSegment p = p := by
  unfold lastSegment
  rw [takeWhile_eq_self, List.reverse_reverse]
  intro x hx
  exact bne_iff_ne.mpr (fun he => h (by rw [← he]; exact List.mem_reverse.mp hx))

theorem lastSegment_decomp {a b : Str} (h : '/' ∉ b) :
    lastSegment (a ++ '/' :: b) = b := by
  unfold lastSegment
  rw [List.reverse_append, List.reverse_cons, List.append_assoc, List.singleton_append,
    takeWhile_append_stop (by simp)
      (fun x hx => bne_iff_ne.mpr (fun he => h (by rw [← he]; exact List.mem_reverse.mp hx))),
    List.reverse_reverse]

theorem mem_of_mem_lastSegment {x : Char} {p : Str} (h : x ∈ lastSegment p) : x ∈ p := by
  unfold lastSegment at h
  exact List.mem_reverse.mp (mem_of_mem_takeWhile (List.mem_reverse.mp h))

theorem finalExtension_of_no_dot {p : Str} (h : '.' ∉ lastSegment p) :
    finalExtension p = none := by
  have h1 : ((lastSegment p).reverse).takeWhile (fun c => c != '.') = (lastSegment p).reverse :=
    takeWhile_eq_self
      (fun x hx => bne_iff_ne.mpr (fun he => h (by rw [← he]; exact List.mem_reverse.mp hx)))
  simp only [finalExtension, h1, List.drop_length]

theorem finalExtension_decomp {p m b : Str} (hseg : lastSegment p = m ++ '.' :: b)
    (hb : '.' ∉ b) :
    finalExtension p = if m.any (fun c => c != '.') then some b else none := by
  have hrev : (lastSegment p).reverse = b.reverse ++ '.' :: m.reverse := by
    rw [hseg, List.reverse_append, List.reverse_cons, List.append_assoc, List.singleton_append]
  have hpre : (b.reverse ++ '.' :: m.reverse).takeWhile (fun c => c != '.') = b.reverse :=
    takeWhile_append_stop (by simp)
      (fun x hx => bne_iff_ne.mpr (fun he => hb (by rw [← he]; exact List.mem_reverse.mp hx)))
  simp only [finalExtension, hrev, hpre, List.drop_left]
  simp only [List.any_reverse, List.reverse_reverse]

/-- The two extension extractions agree: the code's `splitext`-based
extension is the claim-side final extension with its dot restored. -/
theorem splitextExt_eq (p : Str) :
    splitextExt p = (finalExtension p).elim [] (fun e => '.' :: e) := by
  cases hd : rfindIdx '.' p with
  | none =>
    have hnp : '.' ∉ p := not_mem_of_rfindIdx_none hd
    have hseg : '.' ∉ lastSegment p := fun hc => hnp (mem_of_mem_lastSegment hc)
    rw [finalExtension_of_no_dot hseg]
    simp [splitextExt, hd]
  | some d =>
    obtain ⟨a, b, hp, hnb, hlen⟩ := rfindIdx_some_decomp hd
    have h1 : p.drop d = '.' :: b := by rw [hp, ← hlen]; exact List.drop_left a ('.' :: b)
    cases hs : rfindIdx '/' p with
    | none =>
      have hns : '/' ∉ p := not_mem_of_rfindIdx_none hs
      have hseg : lastSegment p = a ++ '.' :: b := by rw [lastSegment_of_not_mem hns, hp]
      rw [finalExtension_decomp hseg hnb]
      have h2 : p.take d = a := by rw [hp, ← hlen]; exact List.take_left a ('.' :: b)
      simp only [splitextExt, hd, hs]
      rw [if_pos (Nat.zero_le d)]
      simp only [List.drop_zero, Nat.sub_zero, h2, h1]
      by_cases hany : a.any (fun c => c != '.') = true
      · rw [if_pos hany, if_pos hany]; rfl
      · rw [if_neg hany, if_neg hany]; rfl
    | some j =>
      obtain ⟨a2, b2, hp2, hnb2, hlen2⟩ := rfindIdx_some_decomp hs
      have hdj : p.drop j = '/' :: b2 := by rw [hp2, ← hlen2]; exact List.drop_left a2 ('/' :: b2)
      have hdj1 : p.drop (j + 1) = b2 := by
        rw [← List.drop_drop, hdj]; rfl
      have hseg : lastSegment p = b2 := by rw [hp2]; exact lastSegment_decomp hnb2
      by_cases hcmp : j + 1 ≤ d
      · have hbd : b2.drop (d - (j + 1)) = '.' :: b := by
          rw [← hdj1, List.drop_drop]
          have harith : (j + 1) + (d - (j + 1)) = d := by omega
          rw [harith, h1]
        have hb2eq : b2 = b2.take (d - (j + 1)) ++ '.' :: b := by
          rw [← hbd]; exact (List.take_append_drop _ b2).symm
        rw [finalExtension_decomp (hseg.trans hb2eq) hnb]
        simp only [splitextExt, hd, hs]
        rw [if_pos hcmp]
        rw [hdj1, h1]
        by_cases hany : (b2.take (d - (j + 1))).any (fun c => c != '.') = true
        · rw [if_pos hany, if_pos hany]; rfl
        · rw [if_neg hany, if_neg hany]; rfl
      · have hpd1 : p.drop (d + 1) = b := by
          rw [hp, ← hlen, ← List.drop_drop, List.drop_left]; rfl
        have hb2b : b2 = b.drop (j - d) := by
          rw [← hdj1, ← hpd1, List.drop_drop]
          congr 1
          omega
        have hdb : '.' ∉ b2 := by
          rw [hb2b]
          exact fun hc => hnb (List.drop_subset _ _ hc)
        rw [finalExtension_of_no_dot (by rw [hseg]; exact hdb)]
        simp only [splitextExt, hd, hs]
        rw [if_neg hcmp]
        rfl

theorem media_exts_map : MEDIA_EXTS = specMediaNames.map (fun e => '.' :: e) := by decide

theorem mem_media_iff (x : Str) : ('.' :: x ∈ MEDIA_EXTS) ↔ x ∈ specMediaNames := by
  rw [media_exts_map]
  simp [List.mem_map, List.cons.injEq]

/-- Forward form of C2: whenever the classifier returns a Boolean, that
Boolean is the claim-side predicate. -/
theorem is_media_eq_spec : ∀ url b, is_media_urlE url = .ok b → b = spec_is_media url := by
  intro url b h
  cases hr : urlparseL url [] with
  | error e =>
    simp only [is_media_urlE, hr] at h
    exact Except.noConfusion h
  | ok r =>
    simp only [is_media_urlE, hr] at h
    have hb : b = decide ((splitextExt r.path).map Char.toLower ∈ MEDIA_EXTS) :=
      (Except.ok.inj h).symm
    subst hb
    simp only [spec_is_media, hr]
    rw [splitextExt_eq]
    cases hf : finalExtension r.path with
    | none =>
      simp only [Option.elim]
      decide
    | some e =>
      simp only [Option.elim]
      exact decide_eq_decide.mpr
        (by rw [List.map_cons, show Char.toLower '.' = '.' from by decide]
            exact mem_media_iff (e.map Char.toLower))

/-! ### urljoin -/

/-- `urllib.parse.uses_relative`. -/
def uses_relative : List Str :=
  ["", "ftp", "http", "gopher", "nntp", "imap", "wais", "file", "https", "shttp",
   "mms", "prospero", "rtsp", "rtspu", "sftp", "svn", "svn+ssh", "ws", "wss"].map String.toList

/-- `urllib.parse.uses_netloc`. -/
def uses_netloc : List Str :=
  ["", "ftp", "http", "gopher", "nntp", "telnet", "imap", "wais", "file", "mms",
   "https", "shttp", "snews", "prospero", "rtsp", "rtspu", "rsync", "svn",
   "svn+ssh", "sftp", "nfs", "git", "git+ssh", "ws", "wss", "itms-services"].map String.toList

/-- Append `sep` and `p` when `p` is nonempty (the query/fragment appends of
`urlunsplit`). -/
def addPart (sep : Char) (u p : Str) : Str := if p ≠ [] then u ++ sep :: p else u

/-- `urllib.parse.urlunsplit`. -/
def urlunsplitL (scheme netloc path query fragment : Str) : Str :=
  let url1 :=
    if netloc ≠ [] ∨ (path ≠ [] ∧ path.take 2 = str "//") then
      (match path with
       | [] => str "//" ++ netloc
       | c :: cs => if c = '/' then str "//" ++ netloc ++ (c :: cs)
                    else str "//" ++ netloc ++ '/' :: c :: cs)
    else path
  let url2 := if scheme ≠ [] then scheme ++ ':' :: url1 else url1
  addPart '#' (addPart '?' url2 query) fragment

/-- `urllib.parse.urlunparse`: restore the params, then `urlunsplit`. -/
def urlunparseL (scheme netloc path params query fragment : Str) : Str :=
  urlunsplitL scheme netloc (if params ≠ [] then path ++ ';' :: params else path) query fragment

/-- `str.split` on a single-character separator: always at least one piece. -/
def splitOnChar (c : Char) : Str → List Str
  | [] => [[]]
  | x :: xs =>
    let r := splitOnChar c xs
    if x = c then [] :: r
    else
      match r with
      | [] => [[x]]
      | h :: t => (x :: h) :: t

/-- `sep.join` on a single-character separator. -/
def joinWith (c : Char) : List Str → Str
  | [] => []
  | [x] => x
  | x :: y :: t => x ++ c :: joinWith c (y :: t)

/-- The netloc chosen by `urljoin` after the early-return branch: the base's
netloc when the scheme uses a netloc (the url's own netloc was empty there),
otherwise the url's. -/
def joinNetloc (u b : ParseResult) : Str :=
  if u.scheme ∈ uses_netloc then b.netloc else u.netloc

/-- The relative-path resolution of `urljoin`: base-directory segments plus
the url's segments, empty inner segments of a relative join dropped, `.` and
`..` resolved, a trailing `.`/`..` leaving a trailing slash, an empty result
becoming `/`. -/
def joinResolvedPath (bpath upath : Str) : Str :=
  let bp0 := splitOnChar '/' bpath
  let base_parts := if bp0.getLastD [] ≠ [] then bp0.dropLast else bp0
  let segments :=
    if upath.take 1 = str "/" then splitOnChar '/' upath
    else
      match base_parts ++ splitOnChar '/' upath with
      | [] => []
      | [x] => [x]
      | x :: y :: t => x :: (((y :: t).dropLast.filter (fun s => !s.isEmpty)) ++ [(y :: t).getLastD []])
  let resolved0 := segments.foldl
    (fun acc seg =>
      if seg = str ".." then acc.dropLast
      else if seg = str "." then acc
      else acc ++ [seg]) ([] : List Str)
  let resolved :=
    if segments.getLastD [] = str "." ∨ segments.getLastD [] = str ".." then resolved0 ++ [[]]
    else resolved0
  let joined := joinWith '/' resolved
  if joined = [] then str "/" else joined

/-- `urllib.parse.urljoin` (CPython 3.11). -/
def urljoinE (base url : Str) : Except String Str :=
  if base = [] then .ok url
  else if url = [] then .ok base
  else
    match urlparseL base [] with
    | .error e => .error e
    | .ok b =>
      match urlparseL url b.scheme with
      | .error e => .error e
      | .ok u =>
        if u.scheme ≠ b.scheme ∨ u.scheme ∉ uses_relative then .ok url
        else if u.scheme ∈ uses_netloc ∧ u.netloc ≠ [] then
          .ok (urlunparseL u.scheme u.netloc u.path u.params u.query u.fragment)
        else if u.path = [] ∧ u.params = [] then
          .ok (urlunparseL u.scheme (joinNetloc u b) b.path b.params
            (if u.query = [] then b.query else u.query) u.fragment)
        else
          .ok (urlunparseL u.scheme (joinNetloc u b) (joinResolvedPath b.path u.path)
            u.params u.query u.fragment)

/-- The scheme detected at the front of a URL, empty when there is none. -/
def schemeOf (u : Str) : Str :=
  match splitScheme (sanitizeUrl u) with
  | some (s, _) => s
  | none => []

/-- A URL is absolute when scheme detection finds a scheme at its front. -/
def isAbsolute (u : Str) : Bool := (splitScheme (sanitizeUrl u)).isSome

example : urljoinE (str "http://h/p") (str "a.png") = .ok (str "http://h/a.png") := by decide
example : urljoinE (str "http://h/p/q") (str "../x/./y.png") = .ok (str "http://h/x/y.png") := by
  decide
example : urljoinE (str "http://h/p") (str "//h2/z.png") = .ok (str "http://h2/z.png") := by decide
example : urljoinE (str "http://h/p") (str "ftp://h/f.png") = .ok (str "ftp://h/f.png") := by
  decide
example : urljoinE (str "http://h/p") (str "#frag") = .ok (str "http://h/p#frag") := by decide

/-- The scheme of a successful `urlsplit` is the detected scheme, or the
default when none is detected. -/
theorem urlsplitL_ok_scheme {url dflt : Str} {r : SplitResult} (h : urlsplitL url dflt = .ok r) :
    r.scheme = (match splitScheme (sanitizeUrl url) with
      | some (s, _) => s
      | none => dflt) := by
  unfold urlsplitL at h
  cases hs : splitScheme (sanitizeUrl url) with
  | none =>
    simp only [hs] at h
    split at h
    · split at h
      · exact absurd h (by simp)
      · rw [← Except.ok.inj h]
    · rw [← Except.ok.inj h]
  | some p =>
    obtain ⟨s, rest⟩ := p
    simp only [hs] at h
    split at h
    · split at h
      · exact absurd h (by simp)
      · rw [← Except.ok.inj h]
    · rw [← Except.ok.inj h]

/-- The scheme of a successful `urlparse` is the detected scheme, or the
default when none is detected. -/
theorem urlparseL_ok_scheme {url dflt : Str} {r : ParseResult} (h : urlparseL url dflt = .ok r) :
    r.scheme = (match splitScheme (sanitizeUrl url) with
      | some (s, _) => s
      | none => dflt) := by
  unfold urlparseL at h
  cases hu : urlsplitL url dflt with
  | error e => simp [hu] at h
  | ok r0 =>
    simp only [hu] at h
    have h0 := urlsplitL_ok_scheme hu
    split at h
    · rw [← Except.ok.inj h]
      exact h0
    · rw [← Except.ok.inj h]
      exact h0

theorem addPart_scheme (sep : Char) (scheme p x : Str) :
    ∃ r : Str, addPart sep (scheme ++ ':' :: x) p = scheme ++ ':' :: r := by
  unfold addPart
  by_cases hp : p ≠ []
  · rw [if_pos hp]
    exact ⟨x ++ sep :: p, by simp [List.append_assoc]⟩
  · rw [if_neg hp]
    exact ⟨x, rfl⟩

theorem addPart_twice_scheme {scheme x q f : Str} {s1 s2 : Char} :
    ∃ r : Str, addPart s2 (addPart s1 (scheme ++ ':' :: x) q) f = scheme ++ ':' :: r := by
  obtain ⟨r1, e1⟩ := addPart_scheme s1 scheme q x
  rw [e1]
  exact addPart_scheme s2 scheme f r1

/-- Any `urlunsplit` with a nonempty scheme starts with `scheme:`. -/
theorem urlunsplitL_shape {scheme : Str} (h : scheme ≠ []) (netloc path query fragment : Str) :
    ∃ rest, urlunsplitL scheme netloc path query fragment = scheme ++ ':' :: rest := by
  simp only [urlunsplitL]
  rw [if_pos h]
  exact addPart_twice_scheme

/-- Any `urlunparse` with a nonempty scheme starts with `scheme:`. -/
theorem urlunparseL_shape {scheme : Str} (h : scheme ≠ [])
    (netloc path params query fragment : Str) :
    ∃ rest, urlunparseL scheme netloc path params query fragment = scheme ++ ':' :: rest := by
  simp only [urlunparseL]
  exact urlunsplitL_shape h _ _ _ _

theorem isAbsolute_http_concat (rest : Str) :
    isAbsolute (str "http" ++ ':' :: rest) = true := rfl

theorem isAbsolute_https_concat (rest : Str) :
    isAbsolute (str "https" ++ ':' :: rest) = true := rfl

/-- Everything `urljoin` returns for a base that parses with an http(s)
scheme is an absolute URL. -/
theorem urljoinE_absolute {base url out : Str} {b : ParseResult}
    (hb : urlparseL base [] = .ok b)
    (hscheme : b.scheme = str "http" ∨ b.scheme = str "https")
    (hj : urljoinE base url = .ok out) :
    isAbsolute out = true := by
  have hbase_ne : base ≠ [] := by
    intro hb0
    subst hb0
    have h0 := urlparseL_ok_scheme hb
    rw [show splitScheme (sanitizeUrl []) = none from rfl] at h0
    rcases hscheme with h2 | h2 <;> rw [h2] at h0 <;> exact absurd h0 (by decide)
  unfold urljoinE at hj
  rw [if_neg hbase_ne] at hj
  by_cases hurl : url = []
  · rw [if_pos hurl] at hj
    have hout : base = out := Except.ok.inj hj
    subst hout
    have h0 := urlparseL_ok_scheme hb
    unfold isAbsolute
    cases hss : splitScheme (sanitizeUrl base) with
    | none =>
      rw [hss] at h0
      rcases hscheme with h2 | h2 <;> rw [h2] at h0 <;> exact absurd h0 (by decide)
    | some p => rfl
  · rw [if_neg hurl] at hj
    simp only [hb] at hj
    cases hu : urlparseL url b.scheme with
    | error e => simp [hu] at hj
    | ok u =>
      simp only [hu] at hj
      by_cases hret : u.scheme ≠ b.scheme ∨ u.scheme ∉ uses_relative
      · rw [if_pos hret] at hj
        have hout : url = out := Except.ok.inj hj
        subst hout
        have hne : u.scheme ≠ b.scheme := by
          rcases hret with h1 | h1
          · exact h1
          · intro he
            apply h1
            rw [he]
            rcases hscheme with h2 | h2 <;> rw [h2] <;> decide
        have husch := urlparseL_ok_scheme hu
        unfold isAbsolute
        cases hss : splitScheme (sanitizeUrl url) with
        | none => rw [hss] at husch; exact absurd husch hne
        | some p => rfl
      · rw [if_neg hret] at hj
        push_neg at hret
        obtain ⟨heq, _⟩ := hret
        have hne2 : u.scheme ≠ [] := by
          rw [heq]
          rcases hscheme with h2 | h2 <;> rw [h2] <;> decide
        have key : ∀ n p pa q f, urlunparseL u.scheme n p pa q f = out →
            isAbsolute out = true := by
          intro n p pa q f hout
          obtain ⟨rest, hr⟩ := urlunparseL_shape hne2 n p pa q f
          rw [← hout, hr, heq]
          rcases hscheme with h2 | h2 <;> rw [h2]
          · exact isAbsolute_http_concat rest
          · exact isAbsolute_https_concat rest
        split at hj
        · exact key _ _ _ _ _ (Except.ok.inj hj)
        · split at hj
          · exact key _ _ _ _ _ (Except.ok.inj hj)
          · exact key _ _ _ _ _ (Except.ok.inj hj)

/-! ### HTML document model and link extraction -/

/-- A parsed HTML document, the output of BeautifulSoup's tree builder:
elements carry a (parser-lowercased) tag name, their attributes in document
order, and their children. -/
inductive Dom where
  | text (s : String) : Dom
  | element (tag : String) (attrs : List (String × String)) (children : List Dom) : Dom

mutual

/-- All elements with the given tag among a list of nodes and their
descendants, in document order. -/
def findAllList (t : String) : List Dom → List Dom
  | [] => []
  | d :: ds => findAllNode t d ++ findAllList t ds

/-- The node itself (when its tag matches) followed by its matching
descendants. -/
def findAllNode (t : String) : Dom → List Dom
  | .text _ => []
  | .element tag attrs cs =>
    (if tag = t then [Dom.element tag attrs cs] else []) ++ findAllList t cs

end

/-- `node.find_all(tag)`: matching elements strictly below the given node
(`soup.find_all` with the document root, `video.find_all("source")` with a
video element). -/
def findAllIn (t : String) (d : Dom) : List Dom :=
  match d with
  | .text _ => []
  | .element _ _ cs => findAllList t cs

/-- `el.get("src")` combined with the code's truthiness guard `if src:`:
the first `src` attribute, `none` when absent or empty. -/
def getSrc (d : Dom) : Option Str :=
  match d with
  | .text _ => none
  | .element _ attrs _ =>
    match attrs.lookup "src" with
    | some s => if s.toList = [] then none else some s.toList
    | none => none

/-- The candidate source strings collected by `collect_media_links`, in
document order: every image's `src`, then for every video its own `src`
followed by the `src` of each nested `source` element. -/
def rawSrcs (soup : Dom) : List Str :=
  ((findAllIn "img" soup).filterMap getSrc)
  ++ (findAllIn "video" soup).flatMap
      (fun v => (getSrc v).toList ++ (findAllIn "source" v).filterMap getSrc)

/-- `urljoin` of the page URL with every candidate, mirroring the loops that
add each joined URL (a `ValueError` raised by `urljoin` propagates). -/
def joinAll (page : Str) : List Str → Except String (List Str)
  | [] => .ok []
  | s :: ss =>
    match urljoinE page s with
    | .error e => .error e
    | .ok u =>
      match joinAll page ss with
      | .error e => .error e
      | .ok rest => .ok (u :: rest)

/-- Set insertion in arrival order: one copy of each URL is kept, as in
Python's `set.add` (a Python set enumerates in an unspecified order;
first-arrival order is the canonical enumeration here). -/
def addUnique (acc : List Str) (u : Str) : List Str := if u ∈ acc then acc else acc ++ [u]

/-- The contents of the `media_urls` set after all insertions. -/
def dedupList (l : List Str) : List Str := l.foldl addUnique []

/-- The closing comprehension `[u for u in media_urls if is_media_url(u)]`
(a `ValueError` raised by the classifier propagates). -/
def filterMedia : List Str → Except String (List Str)
  | [] => .ok []
  | u :: us =>
    match is_media_urlE u with
    | .error e => .error e
    | .ok b =>
      match filterMedia us with
      | .error e => .error e
      | .ok rest => .ok (if b then u :: rest else rest)

/-- `collect_media_links` after the page has been fetched and parsed: join
every candidate source against the page URL, deduplicate (set semantics),
and keep only the URLs the classifier accepts. -/
def collectFromSoup (page : Str) (soup : Dom) : Except String (List Str) :=
  match joinAll page (rawSrcs soup) with
  | .error e => .error e
  | .ok joined => filterMedia (dedupList joined)

/-- Number of image elements in the document. -/
def imgCount (d : Dom) : Nat := (findAllIn "img" d).length

/-- Number of video elements in the document. -/
def videoCount (d : Dom) : Nat := (findAllIn "video" d).length

/-- Number of `source` elements nested inside video elements. -/
def nestedSourceCount (d : Dom) : Nat :=
  ((findAllIn "video" d).map (fun v => (findAllIn "source" v).length)).sum

theorem rawSrcs_length_le (soup : Dom) :
    (rawSrcs soup).length ≤ imgCount soup + videoCount soup + nestedSourceCount soup := by
  unfold rawSrcs imgCount videoCount nestedSourceCount
  rw [List.length_append]
  have h1 := List.length_filterMap_le getSrc (findAllIn "img" soup)
  have h2 : ∀ vs : List Dom,
      (vs.flatMap (fun v => (getSrc v).toList ++ (findAllIn "source" v).filterMap getSrc)).length ≤
        vs.length + (vs.map (fun v => (findAllIn "source" v).length)).sum := by
    intro vs
    induction vs with
    | nil => simp
    | cons v t ih =>
      simp only [List.flatMap_cons, List.length_append, List.map_cons, List.sum_cons,
        List.length_cons]
      have h3 : ((getSrc v).toList).length ≤ 1 := by cases getSrc v <;> simp
      have h4 := List.length_filterMap_le getSrc (findAllIn "source" v)
      omega
  have := h2 (findAllIn "video" soup)
  omega

theorem mem_rawSrcs_ne_nil {soup : Dom} {s : Str} (h : s ∈ rawSrcs soup) : s ≠ [] := by
  unfold rawSrcs at h
  have hsrc : ∀ (d : Dom) (x : Str), getSrc d = some x → x ≠ [] := by
    intro d x hd
    unfold getSrc at hd
    cases d with
    | text _ => exact absurd hd (by simp)
    | element tag attrs cs =>
      cases hl : attrs.lookup "src" with
      | none => simp [hl] at hd
      | some sv =>
        simp only [hl] at hd
        by_cases hz : sv.toList = []
        · rw [if_pos hz] at hd; exact absurd hd (by simp)
        · rw [if_neg hz] at hd
          rw [← Option.some.inj hd]
          exact hz
  rcases List.mem_append.mp h with h1 | h1
  · obtain ⟨d, _, hd⟩ := List.mem_filterMap.mp h1
    exact hsrc d s hd
  · obtain ⟨v, _, hv⟩ := List.mem_flatMap.mp h1
    rcases List.mem_append.mp hv with h2 | h2
    · cases hg : getSrc v with
      | none => rw [hg] at h2; exact absurd h2 (by simp)
      | some x =>
        rw [hg] at h2
        have : s = x := by simpa using h2
        exact this ▸ hsrc v x hg
    · obtain ⟨d, _, hd⟩ := List.mem_filterMap.mp h2
      exact hsrc d s hd

theorem joinAll_ok_length {page : Str} :
    ∀ {l l' : List Str}, joinAll page l = .ok l' → l'.length = l.length := by
  intro l
  induction l with
  | nil => intro l' h; rw [← Except.ok.inj h]
  | cons s ss ih =>
    intro l' h
    unfold joinAll at h
    cases hj : urljoinE page s with
    | error e => simp [hj] at h
    | ok u =>
      simp only [hj] at h
      cases hr : joinAll page ss with
      | error e => simp [hr] at h
      | ok rest =>
        simp only [hr] at h
        rw [← Except.ok.inj h]
        simp [ih hr]

theorem joinAll_ok_mem {page : Str} :
    ∀ {l l' : List Str}, joinAll page l = .ok l' →
      ∀ u ∈ l', ∃ s ∈ l, urljoinE page s = .ok u := by
  intro l
  induction l with
  | nil =>
    intro l' h u hu
    rw [← Except.ok.inj h] at hu
    exact absurd hu (by simp)
  | cons s ss ih =>
    intro l' h u hu
    unfold joinAll at h
    cases hj : urljoinE page s with
    | error e => simp [hj] at h
    | ok v =>
      simp only [hj] at h
      cases hr : joinAll page ss with
      | error e => simp [hr] at h
      | ok rest =>
        simp only [hr] at h
        rw [← Except.ok.inj h] at hu
        rcases List.mem_cons.mp hu with rfl | hu2
        · exact ⟨s, List.mem_cons_self _ _, hj⟩
        · obtain ⟨s2, hs2, he⟩ := ih hr u hu2
          exact ⟨s2, List.mem_cons_of_mem _ hs2, he⟩

theorem foldl_addUnique_nodup :
    ∀ (l acc : List Str), acc.Nodup → (l.foldl addUnique acc).Nodup := by
  intro l
  induction l with
  | nil => intro acc h; exact h
  | cons u t ih =>
    intro acc h
    rw [List.foldl_cons]
    apply ih
    unfold addUnique
    by_cases hm : u ∈ acc
    · rw [if_pos hm]; exact h
    · rw [if_neg hm]
      simp [List.nodup_append, h, hm]

theorem foldl_addUnique_length :
    ∀ (l acc : List Str), (l.foldl addUnique acc).length ≤ acc.length + l.length := by
  intro l
  induction l with
  | nil => intro acc; simp
  | cons u t ih =>
    intro acc
    rw [List.foldl_cons]
    have h1 : (addUnique acc u).length ≤ acc.length + 1 := by
      unfold addUnique
      by_cases hm : u ∈ acc
      · rw [if_pos hm]; omega
      · rw [if_neg hm]; simp
    have h2 := ih (addUnique acc u)
    simp only [List.length_cons]
    omega

theorem foldl_addUnique_mem :
    ∀ (l acc : List Str) (u : Str), u ∈ l.foldl addUnique acc ↔ u ∈ acc ∨ u ∈ l := by
  intro l
  induction l with
  | nil => intro acc u; simp
  | cons v t ih =>
    intro acc u
    rw [List.foldl_cons, ih]
    unfold addUnique
    by_cases hm : v ∈ acc
    · rw [if_pos hm]
      constructor
      · rintro (h | h)
        · exact Or.inl h
        · exact Or.inr (List.mem_cons_of_mem _ h)
      · rintro (h | h)
        · exact Or.inl h
        · rcases List.mem_cons.mp h with rfl | h2
          · exact Or.inl hm
          · exact Or.inr h2
    · rw [if_neg hm]
      simp only [List.mem_append, List.mem_singleton, List.mem_cons]
      tauto

theorem dedupList_nodup (l : List Str) : (dedupList l).Nodup :=
  foldl_addUnique_nodup l [] List.nodup_nil

theorem dedupList_length_le (l : List Str) : (dedupList l).length ≤ l.length := by
  have := foldl_addUnique_length l []
  simpa [dedupList] using this

theorem mem_dedupList {l : List Str} {u : Str} : u ∈ dedupList l ↔ u ∈ l := by
  have := foldl_addUnique_mem l [] u
  simpa [dedupList] using this

theorem filterMedia_ok_sublist :
    ∀ {l l' : List Str}, filterMedia l = .ok l' → l'.Sublist l := by
  intro l
  induction l with
  | nil => intro l' h; rw [← Except.ok.inj h]
  | cons u us ih =>
    intro l' h
    unfold filterMedia at h
    cases hm : is_media_urlE u with
    | error e => simp [hm] at h
    | ok b =>
      simp only [hm] at h
      cases hr : filterMedia us with
      | error e => simp [hr] at h
      | ok rest =>
        simp only [hr] at h
        rw [← Except.ok.inj h]
        cases b with
        | true =>
          rw [if_pos rfl]
          exact (ih hr).cons₂ u
        | false =>
          rw [if_neg Bool.false_ne_true]
          exact (ih hr).cons u

theorem filterMedia_ok_mem_true :
    ∀ {l l' : List Str}, filterMedia l = .ok l' →
      ∀ u ∈ l', is_media_urlE u = .ok true := by
  intro l
  induction l with
  | nil =>
    intro l' h u hu
    rw [← Except.ok.inj h] at hu
    exact absurd hu (by simp)
  | cons v vs ih =>
    intro l' h u hu
    unfold filterMedia at h
    cases hm : is_media_urlE v with
    | error e => simp [hm] at h
    | ok b =>
      simp only [hm] at h
      cases hr : filterMedia vs with
      | error e => simp [hr] at h
      | ok rest =>
        simp only [hr] at h
        rw [← Except.ok.inj h] at hu
        cases b with
        | false =>
          rw [if_neg Bool.false_ne_true] at hu
          exact ih hr u hu
        | true =>
          rw [if_pos rfl] at hu
          rcases List.mem_cons.mp hu with rfl | hu2
          · exact hm
          · exact ih hr u hu2

theorem filterMedia_ok_mem_of :
    ∀ {l l' : List Str}, filterMedia l = .ok l' →
      ∀ u ∈ l, is_media_urlE u = .ok true → u ∈ l' := by
  intro l
  induction l with
  | nil => intro l' _ u hu; exact absurd hu (by simp)
  | cons v vs ih =>
    intro l' h u hu htrue
    unfold filterMedia at h
    cases hm : is_media_urlE v with
    | error e => simp [hm] at h
    | ok b =>
      simp only [hm] at h
      cases hr : filterMedia vs with
      | error e => simp [hr] at h
      | ok rest =>
        simp only [hr] at h
        rw [← Except.ok.inj h]
        rcases List.mem_cons.mp hu with rfl | hu2
        · rw [hm] at htrue
          have hb : b = true := Except.ok.inj htrue
          rw [hb, if_pos rfl]
          exact List.mem_cons_self _ _
        · have hmem := ih hr u hu2 htrue
          cases b with
          | false => rw [if_neg Bool.false_ne_true]; exact hmem
          | true => rw [if_pos rfl]; exact List.mem_cons_of_mem _ hmem

/-! ### Bulk downloader -/

/-- `url.split("?")[0]`: the URL up to the first question mark. -/
def stripQuery (u : Str) : Str := u.takeWhile (fun c => c != '?')

/-- `posixpath.basename`: the text after the last slash
(`p[p.rfind('/')+1:]`). -/
def pathBasename (p : Str) : Str :=
  match rfindIdx '/' p with
  | none => p
  | some j => p.drop (j + 1)

/-- The filename the downloader derives:
`os.path.basename(url.split("?")[0])`. -/
def urlBasename (u : Str) : Str := pathBasename (stripQuery u)

/-- `bytes.hex()`: two lowercase hex digits per byte. -/
def bytesHex (bs : List Nat) : Str :=
  bs.flatMap (fun b => [Nat.digitChar (b / 16 % 16), Nat.digitChar (b % 16)])

/-- `posixpath.join` on two components. -/
def pathJoin (a b : Str) : Str :=
  if b.take 1 = str "/" then b
  else if a = [] ∨ a.getLast? = some '/' then a ++ b
  else a ++ '/' :: b

/-- Result of one `open`-and-write: success, failure after the file was
created (the streaming write broke partway), or failure with no file
(`open` itself raised). -/
inductive WriteRes where
  | ok : WriteRes
  | createdThenFailed : WriteRes
  | failed : WriteRes
deriving DecidableEq, Repr

/-- The effect oracles of `download_media`: the streaming GET combined with
`raise_for_status` (an error is any `RequestException`/`HTTPError`), the
write of a body to a path, and the bytes of the k-th `os.urandom(4)` call. -/
structure DlOracle where
  fetch : Str → Except String String
  write : Str → String → WriteRes
  urandom : Nat → List Nat

/-- Outcome of one URL as the UI reports it: `inl` the saved path
(`st.success`), `inr` the failing URL (`st.error`). -/
abbrev DlOutcome := Str ⊕ Str

/-- State threaded through the download loop: saved paths (the returned
list), filenames created in the output directory, per-URL outcomes, and the
number of `os.urandom` calls made so far. -/
structure DlState where
  saved : List Str
  created : List Str
  outcomes : List DlOutcome
  k : Nat
deriving DecidableEq, Repr

/-- The filename used for a URL: its basename, or `file_` plus the hex of
the k-th random draw when the basename is empty. -/
def dlName (o : DlOracle) (url : Str) (k : Nat) : Str :=
  if urlBasename url = [] then str "file_" ++ bytesHex (o.urandom k) else urlBasename url

/-- The random counter after handling a URL whose fetch succeeded. -/
def dlK (url : Str) (k : Nat) : Nat := if urlBasename url = [] then k + 1 else k

/-- One iteration of the download loop: fetch, derive the filename, write,
record success or failure; every exception is caught and recorded. -/
def dlStep (o : DlOracle) (out : Str) (st : DlState) (url : Str) : DlState :=
  match o.fetch url with
  | .error _ => { st with outcomes := st.outcomes ++ [.inr url] }
  | .ok content =>
    match o.write (pathJoin out (dlName o url st.k)) content with
    | .ok =>
      { saved := st.saved ++ [pathJoin out (dlName o url st.k)],
        created := st.created ++ [dlName o url st.k],
        outcomes := st.outcomes ++ [.inl (pathJoin out (dlName o url st.k))],
        k := dlK url st.k }
    | .createdThenFailed =>
      { st with
          created := st.created ++ [dlName o url st.k]
          outcomes := st.outcomes ++ [.inr url]
          k := dlK url st.k }
    | .failed =>
      { st with outcomes := st.outcomes ++ [.inr url], k := dlK url st.k }

/-- `download_media urls out_dir` from src/media_scraper_app.py. -/
def download_media (o : DlOracle) (urls : List Str) (out : Str) : DlState :=
  urls.foldl (dlStep o out) ⟨[], [], [], 0⟩

/-- Modelled from the claims on the Bulk Downloader: the URLs are processed
in order; a URL whose fetch or write fails contributes exactly one failure
record; a successful URL contributes exactly its saved path. -/
def dlSpec (o : DlOracle) (out : Str) : List Str → Nat → List DlOutcome
  | [], _ => []
  | url :: rest, k =>
    match o.fetch url with
    | .error _ => .inr url :: dlSpec o out rest k
    | .ok content =>
      match o.write (pathJoin out (dlName o url k)) content with
      | .ok => .inl (pathJoin out (dlName o url k)) :: dlSpec o out rest (dlK url k)
      | .createdThenFailed => .inr url :: dlSpec o out rest (dlK url k)
      | .failed => .inr url :: dlSpec o out rest (dlK url k)

/-- The saved paths among a list of outcomes. -/
def successPaths (l : List DlOutcome) : List Str :=
  l.filterMap (fun x => match x with | .inl p => some p | .inr _ => none)

/-- The download loop is the claim-side recursion: outcomes line up with the
URLs and the returned list is exactly the successful paths. -/
theorem download_media_fold (o : DlOracle) (out : Str) :
    ∀ (urls : List Str) (st : DlState),
      (urls.foldl (dlStep o out) st).outcomes = st.outcomes ++ dlSpec o out urls st.k ∧
      (urls.foldl (dlStep o out) st).saved = st.saved ++ successPaths (dlSpec o out urls st.k) := by
  intro urls
  induction urls with
  | nil => intro st; constructor <;> simp [dlSpec, successPaths]
  | cons url rest ih =>
    intro st
    rw [List.foldl_cons]
    cases hf : o.fetch url with
    | error e =>
      have hstep : dlStep o out st url = { st with outcomes := st.outcomes ++ [.inr url] } := by
        simp only [dlStep, hf]
      have hspec : dlSpec o out (url :: rest) st.k = .inr url :: dlSpec o out rest st.k := by
        simp only [dlSpec, hf]
      obtain ⟨h1, h2⟩ := ih { st with outcomes := st.outcomes ++ [.inr url] }
      rw [hstep, hspec]
      constructor
      · rw [h1]; simp
      · rw [h2]; simp [successPaths, List.filterMap_cons]
    | ok content =>
      cases hw : o.write (pathJoin out (dlName o url st.k)) content with
      | ok =>
        have hstep : dlStep o out st url =
            { saved := st.saved ++ [pathJoin out (dlName o url st.k)],
              created := st.created ++ [dlName o url st.k],
              outcomes := st.outcomes ++ [.inl (pathJoin out (dlName o url st.k))],
              k := dlK url st.k } := by
          simp only [dlStep, hf, hw]
        have hspec : dlSpec o out (url :: rest) st.k =
            .inl (pathJoin out (dlName o url st.k)) :: dlSpec o out rest (dlK url st.k) := by
          simp only [dlSpec, hf, hw]
        obtain ⟨h1, h2⟩ := ih
          { saved := st.saved ++ [pathJoin out (dlName o url st.k)],
            created := st.created ++ [dlName o url st.k],
            outcomes := st.outcomes ++ [.inl (pathJoin out (dlName o url st.k))],
            k := dlK url st.k }
        rw [hstep, hspec]
        constructor
        · rw [h1]; simp
        · rw [h2]; simp [successPaths, List.filterMap_cons]
      | createdThenFailed =>
        have hstep : dlStep o out st url =
            { st with
                created := st.created ++ [dlName o url st.k]
                outcomes := st.outcomes ++ [.inr url]
                k := dlK url st.k } := by
          simp only [dlStep, hf, hw]
        have hspec : dlSpec o out (url :: rest) st.k =
            .inr url :: dlSpec o out rest (dlK url st.k) := by
          simp only [dlSpec, hf, hw]
        obtain ⟨h1, h2⟩ := ih
          { st with
              created := st.created ++ [dlName o url st.k]
              outcomes := st.outcomes ++ [.inr url]
              k := dlK url st.k }
        rw [hstep, hspec]
        constructor
        · rw [h1]; simp
        · rw [h2]; simp [successPaths, List.filterMap_cons]
      | failed =>
        have hstep : dlStep o out st url =
            { st with
                outcomes := st.outcomes ++ [.inr url]
                k := dlK url st.k } := by
          simp only [dlStep, hf, hw]
        have hspec : dlSpec o out (url :: rest) st.k =
            .inr url :: dlSpec o out rest (dlK url st.k) := by
          simp only [dlSpec, hf, hw]
        obtain ⟨h1, h2⟩ := ih
          { st with
              outcomes := st.outcomes ++ [.inr url]
              k := dlK url st.k }
        rw [hstep, hspec]
        constructor
        · rw [h1]; simp
        · rw [h2]; simp [successPaths, List.filterMap_cons]

theorem dlSpec_length (o : DlOracle) (out : Str) :
    ∀ (urls : List Str) (k : Nat), (dlSpec o out urls k).length = urls.length := by
  intro urls
  induction urls with
  | nil => intro k; rfl
  | cons url rest ih =>
    intro k
    unfold dlSpec
    cases hf : o.fetch url with
    | error e => simp [ih]
    | ok content =>
      cases hw : o.write (pathJoin out (dlName o url k)) content <;> simp [hw, ih]

/-- Every successful path comes from some URL of the list, is the join of
the output directory with that URL's derived name, and was fetched and
written successfully. -/
theorem successPaths_dlSpec_mem {o : DlOracle} {out : Str} :
    ∀ {urls : List Str} {k : Nat} {p : Str}, p ∈ successPaths (dlSpec o out urls k) →
      ∃ u ∈ urls, ∃ k' : Nat, p = pathJoin out (dlName o u k') ∧
        ∃ content, o.fetch u = .ok content ∧ o.write p content = .ok := by
  intro urls
  induction urls with
  | nil => intro k p h; simp [dlSpec, successPaths] at h
  | cons url rest ih =>
    intro k p h
    unfold dlSpec at h
    cases hf : o.fetch url with
    | error e =>
      rw [hf] at h
      simp only [successPaths, List.filterMap_cons] at h
      obtain ⟨u, hu, hrest⟩ := ih h
      exact ⟨u, List.mem_cons_of_mem _ hu, hrest⟩
    | ok content =>
      simp only [hf] at h
      cases hw : o.write (pathJoin out (dlName o url k)) content with
      | ok =>
        simp only [hw] at h
        simp only [successPaths, List.filterMap_cons] at h
        rcases List.mem_cons.mp h with rfl | h2
        · exact ⟨url, List.mem_cons_self _ _, k, rfl, content, hf, hw⟩
        · obtain ⟨u, hu, hrest⟩ := ih h2
          exact ⟨u, List.mem_cons_of_mem _ hu, hrest⟩
      | createdThenFailed =>
        simp only [hw] at h
        simp only [successPaths, List.filterMap_cons] at h
        obtain ⟨u, hu, hrest⟩ := ih h
        exact ⟨u, List.mem_cons_of_mem _ hu, hrest⟩
      | failed =>
        simp only [hw] at h
        simp only [successPaths, List.filterMap_cons] at h
        obtain ⟨u, hu, hrest⟩ := ih h
        exact ⟨u, List.mem_cons_of_mem _ hu, hrest⟩

theorem download_media_saved_mem {o : DlOracle} {urls : List Str} {out p : Str}
    (h : p ∈ (download_media o urls out).saved) :
    ∃ u ∈ urls, ∃ k' : Nat, p = pathJoin out (dlName o u k') ∧
      ∃ content, o.fetch u = .ok content ∧ o.write p content = .ok := by
  have hf := (download_media_fold o out urls ⟨[], [], [], 0⟩).2
  unfold download_media at h
  rw [hf] at h
  simp only [List.nil_append] at h
  exact successPaths_dlSpec_mem h

theorem download_media_saved_length_le (o : DlOracle) (urls : List Str) (out : Str) :
    (download_media o urls out).saved.length ≤ urls.length := by
  have hf := (download_media_fold o out urls ⟨[], [], [], 0⟩).2
  unfold download_media
  rw [hf]
  simp only [List.nil_append, successPaths]
  calc (List.filterMap _ (dlSpec o out urls 0)).length
      ≤ (dlSpec o out urls 0).length := List.length_filterMap_le _ _
    _ = urls.length := dlSpec_length o out urls 0

/-! ### Filename properties -/

theorem pathBasename_no_slash (p : Str) : '/' ∉ pathBasename p := by
  unfold pathBasename
  cases h : rfindIdx '/' p with
  | none => exact not_mem_of_rfindIdx_none h
  | some j =>
    obtain ⟨a, b, hp, hnb, hlen⟩ := rfindIdx_some_decomp h
    rw [hp, ← hlen]
    show '/' ∉ List.drop (a.length + 1) (a ++ '/' :: b)
    rw [← List.drop_drop, List.drop_left]
    simpa using hnb

theorem urlBasename_eq_lastSegment (u : Str) : urlBasename u = lastSegment (stripQuery u) := by
  unfold urlBasename pathBasename
  cases h : rfindIdx '/' (stripQuery u) with
  | none => rw [lastSegment_of_not_mem (not_mem_of_rfindIdx_none h)]
  | some j =>
    obtain ⟨a, b, hp, hnb, hlen⟩ := rfindIdx_some_decomp h
    rw [hp, ← hlen]
    show List.drop (a.length + 1) (a ++ '/' :: b) = lastSegment (a ++ '/' :: b)
    rw [lastSegment_decomp hnb, ← List.drop_drop, List.drop_left]
    simp

theorem digitChar_mod16_ne_slash (n : Nat) : Nat.digitChar (n % 16) ≠ '/' := by
  have h : n % 16 < 16 := Nat.mod_lt _ (by norm_num)
  set m := n % 16 with hm
  interval_cases m <;> decide

theorem bytesHex_no_slash (bs : List Nat) : '/' ∉ bytesHex bs := by
  intro h
  unfold bytesHex at h
  obtain ⟨b, _, hb⟩ := List.mem_flatMap.mp h
  rcases List.mem_cons.mp hb with h1 | h1
  · exact digitChar_mod16_ne_slash (b / 16) h1.symm
  · rcases List.mem_cons.mp h1 with h2 | h2
    · exact digitChar_mod16_ne_slash b h2.symm
    · exact absurd h2 (by simp)

theorem dlName_ne_nil (o : DlOracle) (url : Str) (k : Nat) : dlName o url k ≠ [] := by
  unfold dlName
  by_cases h : urlBasename url = []
  · rw [if_pos h]; simp [str]
  · rw [if_neg h]; exact h

theorem dlName_no_slash (o : DlOracle) (url : Str) (k : Nat) : '/' ∉ dlName o url k := by
  unfold dlName
  by_cases h : urlBasename url = []
  · rw [if_pos h]
    intro hm
    rcases List.mem_append.mp hm with h1 | h1
    · exact absurd h1 (by decide)
    · exact bytesHex_no_slash _ h1
  · rw [if_neg h]
    exact pathBasename_no_slash _

/-- Either the URL's own basename, or a synthesized `file_`-prefixed name. -/
theorem dlName_cases (o : DlOracle) (url : Str) (k : Nat) :
    dlName o url k = urlBasename url ∨
      ∃ tail, dlName o url k = str "file_" ++ tail := by
  unfold dlName
  by_cases h : urlBasename url = []
  · rw [if_pos h]; exact Or.inr ⟨bytesHex (o.urandom k), rfl⟩
  · rw [if_neg h]; exact Or.inl rfl

/-! ### Interactive session model -/

/-- The two classes of exception the top level distinguishes:
`requests.exceptions.RequestException` and everything else. -/
inductive PyErr where
  | request (msg : String) : PyErr
  | value (msg : String) : PyErr
deriving DecidableEq, Repr

/-- `collect_media_links` with its network call made an oracle.  `requests.get`
only accepts http/https URLs (anything else raises MissingSchema /
InvalidSchema, both `RequestException`); `fetchPage` returning `none` is a
connection-level failure, `some (code, soup)` is a response with its status
code and parsed body; `raise_for_status` raises `HTTPError` exactly for
status codes 400-599. -/
def collect_media_linksE (fetchPage : Str → Option (Nat × Dom)) (page : Str) :
    Except PyErr (List Str) :=
  if schemeOf page ≠ str "http" ∧ schemeOf page ≠ str "https" then
    .error (.request "unsupported URL scheme")
  else
    match fetchPage page with
    | none => .error (.request "connection error")
    | some (code, soup) =>
      if 400 ≤ code ∧ code < 600 then .error (.request "HTTP error")
      else
        match collectFromSoup page soup with
        | .error e => .error (.value e)
        | .ok links => .ok links

/-- The image suffixes of the preview loop. -/
def IMG_SUFFIXES : List Str :=
  [".png", ".jpg", ".jpeg", ".gif", ".webp", ".svg"].map String.toList

/-- The video suffixes of the preview loop. -/
def VID_SUFFIXES : List Str :=
  [".mp4", ".webm", ".ogg", ".mov", ".avi", ".mkv"].map String.toList

/-- `name.lower().endswith(tuple)`. -/
def endsWithAny (s : Str) (exts : List Str) : Bool := exts.any (fun e => e.isSuffixOf s)

/-- What the preview loop renders for one file: an inline image
(`st.image` plus a download button), an inline video (`st.video` plus a
download button), or neither when the name matches no suffix (only the
caption is shown then). -/
inductive RenderItem where
  | image (path name : Str) : RenderItem
  | video (path name : Str) : RenderItem
  | bare (path name : Str) : RenderItem
deriving DecidableEq, Repr

/-- The rendering decision of the preview loop on a saved file path. -/
def renderItem (path : Str) : RenderItem :=
  let name := pathBasename path
  if endsWithAny (name.map Char.toLower) IMG_SUFFIXES then .image path name
  else if endsWithAny (name.map Char.toLower) VID_SUFFIXES then .video path name
  else .bare path name

/-- Entry names of the zip built by `shutil.make_archive` over the session
directory: `ZipFile(zip_filename, "w")` creates `media.zip` inside the very
directory being archived before `os.walk` lists it, so the walk sees the
created download files plus `media.zip` itself, and each regular file found
is written under its base name (sorted; enumeration order here is
first-created, membership and count faithful). -/
def archiveEntries (created : List Str) : List Str :=
  dedupList (created ++ [str "media.zip"])

/-- Outcome of one scrape session (the Streamlit flow behind the button):
a network error message, a generic error message, the no-media notice, the
no-downloads notice, or the results page with the link list, the zip's entry
names, and the preview pairs produced by `zip(downloaded, media_links)`. -/
inductive Outcome where
  | networkError : Outcome
  | genericError : Outcome
  | noMedia : Outcome
  | noDownloads (links : List Str) : Outcome
  | results (links : List Str) (archive : List Str) (preview : List (RenderItem × Str)) : Outcome
deriving DecidableEq, Repr

/-- The module-level UI flow: collect links (a `RequestException` is shown
as a network error, any other exception as a generic error), stop when no
media was found, download into the fresh temporary directory, and when
anything was saved build the archive and render the preview over
`zip(downloaded, media_links)`. -/
def scrapeSession (fetchPage : Str → Option (Nat × Dom)) (o : DlOracle) (tmp page : Str) :
    Outcome :=
  match collect_media_linksE fetchPage page with
  | .error (.request _) => .networkError
  | .error (.value _) => .genericError
  | .ok links =>
    if links = [] then .noMedia
    else if (download_media o links tmp).saved = [] then .noDownloads links
    else
      .results links (archiveEntries (download_media o links tmp).created)
        (((download_media o links tmp).saved.zip links).map (fun pu => (renderItem pu.1, pu.2)))

/-- The preview list of an outcome (empty unless results were shown). -/
def previewOf : Outcome → List (RenderItem × Str)
  | .results _ _ p => p
  | _ => []

/-- The archive entry names of an outcome (empty unless results were shown). -/
def archiveOf : Outcome → List Str
  | .results _ a _ => a
  | _ => []

/-- Whether the session reached the results page. -/
def isResults : Outcome → Bool
  | .results _ _ _ => true
  | _ => false

/-! ### Further session lemmas -/

/-- When `urljoin` of a nonempty base and url returns normally, the base was
parsed successfully. -/
theorem urljoinE_ok_base_parse {base url out : Str} (hb : base ≠ []) (hu : url ≠ [])
    (h : urljoinE base url = .ok out) : ∃ b, urlparseL base [] = .ok b := by
  unfold urljoinE at h
  rw [if_neg hb, if_neg hu] at h
  cases hp : urlparseL base [] with
  | error e => simp [hp] at h
  | ok b => exact ⟨b, rfl⟩

/-- Parsing with no default scheme yields exactly the detected scheme. -/
theorem urlparseL_nil_scheme {url : Str} {b : ParseResult} (h : urlparseL url [] = .ok b) :
    b.scheme = schemeOf url := by
  have h0 := urlparseL_ok_scheme h
  unfold schemeOf
  cases hss : splitScheme (sanitizeUrl url) with
  | none => simp only [hss] at h0 ⊢; exact h0
  | some p => obtain ⟨s, r⟩ := p; simp only [hss] at h0 ⊢; exact h0

/-! ### Concrete sessions used to evaluate the model -/

/-- Session temporary directory (`tempfile.mkdtemp()` result). -/
def tmp0 : Str := str "/tmp/x"

/-- A page URL. -/
def page0 : Str := str "http://h/p"

/-- An image element with a `src` attribute. -/
def imgEl (src : String) : Dom := Dom.element "img" [("src", src)] []

/-- A `source` element with a `src` attribute. -/
def sourceEl (src : String) : Dom := Dom.element "source" [("src", src)] []

/-- Oracles for which every fetch and every write succeed. -/
def oAll : DlOracle := ⟨fun _ => .ok "data", fun _ _ => .ok, fun _ => []⟩

/-- Oracles for which exactly the URL `http://h/b.png` fails to fetch. -/
def oFailB : DlOracle :=
  ⟨fun u => if u = str "http://h/b.png" then .error "connection error" else .ok "data",
   fun _ _ => .ok, fun _ => []⟩

/-- A page with two images, `a.jpg` and `b.mp4`. -/
def dom3 : Dom := Dom.element "html" [] [imgEl "a.jpg", imgEl "b.mp4"]

/-- Fetch oracle returning `dom3` with status 200. -/
def fp3 : Str → Option (Nat × Dom) := fun _ => some (200, dom3)

/-- A page with one video holding two `source` children. -/
def dom4 : Dom :=
  Dom.element "html" [] [Dom.element "video" [] [sourceEl "a.mp4", sourceEl "b.mp4"]]

/-- Fetch oracle returning `dom4` with status 200. -/
def fp4 : Str → Option (Nat × Dom) := fun _ => some (200, dom4)

/-- A page with one image. -/
def dom6 : Dom := Dom.element "html" [] [imgEl "a.png"]

/-- Fetch oracle returning `dom6` with the non-success status 304. -/
def fp6 : Str → Option (Nat × Dom) := fun _ => some (304, dom6)

/-- A page with six images. -/
def dom8 : Dom :=
  Dom.element "html" []
    [imgEl "a1.png", imgEl "a2.png", imgEl "a3.png",
     imgEl "a4.png", imgEl "a5.png", imgEl "a6.png"]

/-- Fetch oracle returning `dom8` with status 200. -/
def fp8 : Str → Option (Nat × Dom) := fun _ => some (200, dom8)

/-- A page with three images `a.png`, `b.png`, `c.png`. -/
def dom9 : Dom := Dom.element "html" [] [imgEl "a.png", imgEl "b.png", imgEl "c.png"]

/-- Fetch oracle returning `dom9` with status 200. -/
def fp9 : Str → Option (Nat × Dom) := fun _ => some (200, dom9)

/-! ### Claims -/

/-- C1: `download_media` processes the URLs sequentially and never raises out
of the batch: every URL yields exactly one recorded outcome (a failure record
for a failing fetch or write, the saved path for a success), the returned
list is exactly the saved paths of the successful URLs in order, and in the
concrete run of three URLs whose second fetch fails exactly the two
successful paths are returned. -/
theorem claim_C1 :
    (∀ (o : DlOracle) (urls : List Str) (out : Str),
      (download_media o urls out).outcomes = dlSpec o out urls 0 ∧
      (download_media o urls out).saved = successPaths (dlSpec o out urls 0) ∧
      (dlSpec o out urls 0).length = urls.length) ∧
    (download_media oFailB
        [str "http://h/a.png", str "http://h/b.png", str "http://h/c.png"] tmp0).saved =
      [str "/tmp/x/a.png", str "/tmp/x/c.png"] := by
  constructor
  · intro o urls out
    obtain ⟨h1, h2⟩ := download_media_fold o out urls ⟨[], [], [], 0⟩
    refine ⟨?_, ?_, dlSpec_length o out urls 0⟩
    · unfold download_media
      rw [h1, List.nil_append]
    · unfold download_media
      rw [h2, List.nil_append]
  · decide

/-- C2 (amended): wherever `is_media_url` returns a Boolean — that is, for
every URL on which `urlparse` does not raise — the Boolean is true iff the
final extension of the URL's path component (query string and fragment
ignored), compared case-insensitively, lies in the fixed allow-list;
the claim's six examples evaluate as stated. -/
theorem claim_C2 :
    (∀ (url : Str) (b : Bool), is_media_urlE url = .ok b → b = spec_is_media url) ∧
    is_media_urlE (str "http://e.com/a.JPG") = .ok true ∧
    is_media_urlE (str "http://e.com/v.mp4") = .ok true ∧
    is_media_urlE (str "http://e.com/i.svg?x=1") = .ok true ∧
    is_media_urlE (str "http://e.com/a.txt") = .ok false ∧
    is_media_urlE (str "http://e.com/d.pdf") = .ok false ∧
    is_media_urlE (str "http://e.com/file") = .ok false :=
  ⟨is_media_eq_spec, by decide, by decide, by decide, by decide, by decide, by decide⟩

/-- C2 counterexample: on the URL `http://[h/a.png` the classifier does not
return any Boolean at all — `urlparse` raises `ValueError` for the unmatched
bracket in the netloc — although the claim, stated for every URL string,
requires it to return a Boolean (here true, the path extension being
`.png`). -/
theorem claim_C2_cx :
    is_media_urlE (str "http://[h/a.png") = .error "Invalid IPv6 URL" := by decide

/-- C2 witness: the amended equivalence applied to a concrete URL. -/
theorem claim_C2_witness : true = spec_is_media (str "http://e.com/a.JPG") :=
  claim_C2.1 (str "http://e.com/a.JPG") true (by decide)

/-- C7: every path the downloader returns was derived from its URL as the
final path segment of the URL with the query string stripped, joined to the
destination directory — or, when that segment is empty, a synthesized random
`file_` name — and the body fetched for that URL was written at that path. -/
theorem claim_C7 :
    ∀ (o : DlOracle) (urls : List Str) (out p : Str),
      p ∈ (download_media o urls out).saved →
      ∃ u ∈ urls, ∃ content, o.fetch u = .ok content ∧ o.write p content = .ok ∧
        ((lastSegment (stripQuery u) ≠ [] ∧ p = pathJoin out (lastSegment (stripQuery u))) ∨
         (lastSegment (stripQuery u) = [] ∧
           ∃ k, p = pathJoin out (str "file_" ++ bytesHex (o.urandom k)))) := by
  intro o urls out p hp
  obtain ⟨u, hu, k', hpath, content, hfetch, hwrite⟩ := download_media_saved_mem hp
  refine ⟨u, hu, content, hfetch, hwrite, ?_⟩
  rw [← urlBasename_eq_lastSegment]
  unfold dlName at hpath
  by_cases hb : urlBasename u = []
  · rw [if_pos hb] at hpath
    exact Or.inr ⟨hb, k', hpath⟩
  · rw [if_neg hb] at hpath
    exact Or.inl ⟨hb, hpath⟩

/-- C7 witness: the derivation applied to one concrete saved file. -/
theorem claim_C7_witness :
    str "/tmp/x/a.jpg" ∈ (download_media oAll [str "http://h/a.jpg"] tmp0).saved ∧
    (∃ u ∈ [str "http://h/a.jpg"], ∃ content, oAll.fetch u = .ok content ∧
      oAll.write (str "/tmp/x/a.jpg") content = .ok ∧
      ((lastSegment (stripQuery u) ≠ [] ∧
          str "/tmp/x/a.jpg" = pathJoin tmp0 (lastSegment (stripQuery u))) ∨
       (lastSegment (stripQuery u) = [] ∧
          ∃ k, str "/tmp/x/a.jpg" = pathJoin tmp0 (str "file_" ++ bytesHex (oAll.urandom k))))) :=
  ⟨by decide, claim_C7 oAll [str "http://h/a.jpg"] tmp0 (str "/tmp/x/a.jpg") (by decide)⟩

/-- C10: every path `download_media` returns is the destination directory
joined with a single nonempty filename component containing no path
separator — that component being the basename of one of the input URLs or a
synthesized `file_`-prefixed name — so each saved file lies directly inside
the destination directory. -/
theorem claim_C10 :
    ∀ (o : DlOracle) (urls : List Str) (out p : Str),
      p ∈ (download_media o urls out).saved →
      ∃ name : Str, name ≠ [] ∧ '/' ∉ name ∧ p = pathJoin out name ∧
        ((∃ u ∈ urls, name = urlBasename u) ∨ ∃ tail, name = str "file_" ++ tail) := by
  intro o urls out p hp
  obtain ⟨u, hu, k', hpath, _⟩ := download_media_saved_mem hp
  refine ⟨dlName o u k', dlName_ne_nil o u k', dlName_no_slash o u k', hpath, ?_⟩
  rcases dlName_cases o u k' with h | ⟨tail, ht⟩
  · exact Or.inl ⟨u, hu, h⟩
  · exact Or.inr ⟨tail, ht⟩

/-- C10 witness: the containment property applied to one concrete saved
file. -/
theorem claim_C10_witness :
    str "/tmp/x/b.mp4" ∈ (download_media oAll [str "http://h/b.mp4"] tmp0).saved ∧
    (∃ name : Str, name ≠ [] ∧ '/' ∉ name ∧ str "/tmp/x/b.mp4" = pathJoin tmp0 name ∧
      ((∃ u ∈ [str "http://h/b.mp4"], name = urlBasename u) ∨
        ∃ tail, name = str "file_" ++ tail)) :=
  ⟨by decide, claim_C10 oAll [str "http://h/b.mp4"] tmp0 (str "/tmp/x/b.mp4") (by decide)⟩

/-- C4 (amended): whenever the Link Extractor returns, it returns a
deduplicated list of size at most N+M+S — N image tags, M video tags, S
`source` sub-elements nested in videos — whose members are all absolute URLs,
each obtained by resolving some image `src`, video `src`, or nested `source`
`src` of the fetched page against the page URL. -/
theorem claim_C4 :
    ∀ (fp : Str → Option (Nat × Dom)) (page : Str) (res : List Str),
      collect_media_linksE fp page = .ok res →
      ∃ code dom, fp page = some (code, dom) ∧
        res.Nodup ∧
        res.length ≤ imgCount dom + videoCount dom + nestedSourceCount dom ∧
        ∀ u ∈ res, isAbsolute u = true ∧ ∃ src ∈ rawSrcs dom, urljoinE page src = .ok u := by
  intro fp page res h
  unfold collect_media_linksE at h
  by_cases hsch : schemeOf page ≠ str "http" ∧ schemeOf page ≠ str "https"
  · rw [if_pos hsch] at h
    exact absurd h (by simp)
  · rw [if_neg hsch] at h
    have hor : schemeOf page = str "http" ∨ schemeOf page = str "https" := by
      by_cases h1 : schemeOf page = str "http"
      · exact Or.inl h1
      · right
        by_contra h2
        exact hsch ⟨h1, h2⟩
    cases hfp : fp page with
    | none => rw [hfp] at h; exact absurd h (by simp)
    | some cd =>
      obtain ⟨code, dom⟩ := cd
      simp only [hfp] at h
      by_cases hst : 400 ≤ code ∧ code < 600
      · rw [if_pos hst] at h
        exact absurd h (by simp)
      · rw [if_neg hst] at h
        cases hc : collectFromSoup page dom with
        | error e => simp [hc] at h
        | ok links0 =>
          simp only [hc] at h
          have hres : links0 = res := Except.ok.inj h
          subst hres
          unfold collectFromSoup at hc
          cases hj : joinAll page (rawSrcs dom) with
          | error e => simp [hj] at hc
          | ok joined =>
            simp only [hj] at hc
            have hsub := filterMedia_ok_sublist hc
            refine ⟨code, dom, rfl, hsub.nodup (dedupList_nodup joined), ?_, ?_⟩
            · calc links0.length
                  ≤ (dedupList joined).length := hsub.length_le
                _ ≤ joined.length := dedupList_length_le joined
                _ = (rawSrcs dom).length := joinAll_ok_length hj
                _ ≤ _ := rawSrcs_length_le dom
            · intro u hu
              have hmem : u ∈ joined := mem_dedupList.mp (hsub.subset hu)
              obtain ⟨src, hsrc, hje⟩ := joinAll_ok_mem hj u hmem
              have hpage : page ≠ [] := by
                intro he
                rw [he] at hor
                rcases hor with h2 | h2 <;> exact absurd h2 (by decide)
              obtain ⟨b, hbp⟩ := urljoinE_ok_base_parse hpage (mem_rawSrcs_ne_nil hsrc) hje
              have hbs := urlparseL_nil_scheme hbp
              exact ⟨urljoinE_absolute hbp (by rw [hbs]; exact hor) hje, src, hsrc, hje⟩

/-- C4 counterexample: a page with no image tag and one video tag holding
two `source` children with distinct media sources makes the extractor return
2 URLs, exceeding the claimed bound N+M = 1. -/
theorem claim_C4_cx :
    collect_media_linksE fp4 page0 = .ok [str "http://h/a.mp4", str "http://h/b.mp4"] ∧
    imgCount dom4 + videoCount dom4 = 1 ∧
    ¬ ([str "http://h/a.mp4", str "http://h/b.mp4"] : List Str).length ≤
        imgCount dom4 + videoCount dom4 :=
  ⟨by decide, by decide, by decide⟩

/-- C4 witness: the amended bound and absoluteness applied to the two-source
video page. -/
theorem claim_C4_witness :
    ∃ code dom, fp4 page0 = some (code, dom) ∧
      ([str "http://h/a.mp4", str "http://h/b.mp4"] : List Str).Nodup ∧
      ([str "http://h/a.mp4", str "http://h/b.mp4"] : List Str).length ≤
        imgCount dom + videoCount dom + nestedSourceCount dom ∧
      ∀ u ∈ [str "http://h/a.mp4", str "http://h/b.mp4"],
        isAbsolute u = true ∧ ∃ src ∈ rawSrcs dom, urljoinE page0 src = .ok u :=
  claim_C4 fp4 page0 [str "http://h/a.mp4", str "http://h/b.mp4"] (by decide)

/-- C5: the list the session hands to the Bulk Downloader is the value
returned by the Link Extractor, which is exactly the deduplicated candidate
set filtered by the Media Classifier, so every URL handed over satisfies
`is_media_url` (the session passes this very list to `download_media`, see
`scrapeSession`). -/
theorem claim_C5 :
    ∀ (fp : Str → Option (Nat × Dom)) (page : Str) (links : List Str),
      collect_media_linksE fp page = .ok links →
      (∃ code dom joined, fp page = some (code, dom) ∧
          joinAll page (rawSrcs dom) = .ok joined ∧
          filterMedia (dedupList joined) = .ok links) ∧
      ∀ u ∈ links, is_media_urlE u = .ok true := by
  intro fp page links h
  unfold collect_media_linksE at h
  by_cases hsch : schemeOf page ≠ str "http" ∧ schemeOf page ≠ str "https"
  · rw [if_pos hsch] at h
    exact absurd h (by simp)
  · rw [if_neg hsch] at h
    cases hfp : fp page with
    | none => rw [hfp] at h; exact absurd h (by simp)
    | some cd =>
      obtain ⟨code, dom⟩ := cd
      simp only [hfp] at h
      by_cases hst : 400 ≤ code ∧ code < 600
      · rw [if_pos hst] at h
        exact absurd h (by simp)
      · rw [if_neg hst] at h
        cases hc : collectFromSoup page dom with
        | error e => simp [hc] at h
        | ok links0 =>
          simp only [hc] at h
          have hres : links0 = links := Except.ok.inj h
          subst hres
          unfold collectFromSoup at hc
          cases hj : joinAll page (rawSrcs dom) with
          | error e => simp [hj] at hc
          | ok joined =>
            simp only [hj] at hc
            exact ⟨⟨code, dom, joined, rfl, hj, hc⟩, filterMedia_ok_mem_true hc⟩

/-- C5 witness: the invariant applied to a concrete session. -/
theorem claim_C5_witness :
    (∃ code dom joined, fp3 page0 = some (code, dom) ∧
        joinAll page0 (rawSrcs dom) = .ok joined ∧
        filterMedia (dedupList joined) = .ok [str "http://h/a.jpg", str "http://h/b.mp4"]) ∧
    ∀ u ∈ [str "http://h/a.jpg", str "http://h/b.mp4"], is_media_urlE u = .ok true :=
  claim_C5 fp3 page0 [str "http://h/a.jpg", str "http://h/b.mp4"] (by decide)

/-- C6 (amended): a connection failure while fetching the page, or a
client-error/server-error status (4xx/5xx), is fatal to the session:
`collect_media_links` raises a `RequestException`, the session shows the
network-error message, and no links, downloads, archive or preview are
produced. -/
theorem claim_C6 :
    ∀ (fp : Str → Option (Nat × Dom)) (o : DlOracle) (tmp page : Str),
      (fp page = none ∨ ∃ code dom, fp page = some (code, dom) ∧ 400 ≤ code ∧ code < 600) →
      (∃ msg, collect_media_linksE fp page = .error (.request msg)) ∧
      scrapeSession fp o tmp page = .networkError := by
  intro fp o tmp page hyp
  have hcol : ∃ msg, collect_media_linksE fp page = .error (.request msg) := by
    unfold collect_media_linksE
    by_cases hsch : schemeOf page ≠ str "http" ∧ schemeOf page ≠ str "https"
    · rw [if_pos hsch]
      exact ⟨_, rfl⟩
    · rw [if_neg hsch]
      rcases hyp with hnone | ⟨code, dom, hsome, h4, h6⟩
      · rw [hnone]
        exact ⟨_, rfl⟩
      · simp only [hsome]
        rw [if_pos ⟨h4, h6⟩]
        exact ⟨_, rfl⟩
  obtain ⟨msg, hm⟩ := hcol
  refine ⟨⟨msg, hm⟩, ?_⟩
  unfold scrapeSession
  simp only [hm]

/-- C6 counterexample: a 304 response — a non-success HTTP status — is not
fatal: the session proceeds to a full results page instead of the claimed
network-error stop. -/
theorem claim_C6_cx :
    fp6 page0 = some (304, dom6) ∧
    scrapeSession fp6 oAll tmp0 page0 ≠ .networkError ∧
    isResults (scrapeSession fp6 oAll tmp0 page0) = true :=
  ⟨rfl, by decide, by decide⟩

/-- C6 witness: the amended fatality applied to a failing fetch. -/
theorem claim_C6_witness :
    (∃ msg, collect_media_linksE (fun _ => none) page0 = .error (.request msg)) ∧
    scrapeSession (fun _ => none) oAll tmp0 page0 = .networkError :=
  claim_C6 (fun _ => none) oAll tmp0 page0 (Or.inl rfl)

/-- C8 (amended): the results page renders an inline preview entry for every
downloaded file — not only the first 5 — namely the pairs of
`zip(downloaded, media_links)` passed through the suffix-based rendering
(image, video, or caption-only), one entry per saved file. -/
theorem claim_C8 :
    ∀ (fp : Str → Option (Nat × Dom)) (o : DlOracle) (tmp page : Str)
      (links arch : List Str) (prev : List (RenderItem × Str)),
      scrapeSession fp o tmp page = .results links arch prev →
      prev = ((download_media o links tmp).saved.zip links).map
        (fun pu => (renderItem pu.1, pu.2)) ∧
      prev.length = (download_media o links tmp).saved.length := by
  intro fp o tmp page links arch prev h
  unfold scrapeSession at h
  cases hc : collect_media_linksE fp page with
  | error e =>
    cases e with
    | request m => simp only [hc] at h; exact Outcome.noConfusion h
    | value m => simp only [hc] at h; exact Outcome.noConfusion h
  | ok links0 =>
    simp only [hc] at h
    by_cases hl : links0 = []
    · rw [if_pos hl] at h
      exact Outcome.noConfusion h
    · rw [if_neg hl] at h
      by_cases hs : (download_media o links0 tmp).saved = []
      · rw [if_pos hs] at h
        exact Outcome.noConfusion h
      · rw [if_neg hs] at h
        injection h with h1 h2 h3
        subst h1
        subst h3
        refine ⟨rfl, ?_⟩
        rw [List.length_map, List.length_zip]
        exact min_eq_left (download_media_saved_length_le o links0 tmp)

/-- C8 counterexample: a page with six images yields six successfully
downloaded files and a preview of six entries, not at most five. -/
theorem claim_C8_cx :
    (previewOf (scrapeSession fp8 oAll tmp0 page0)).length = 6 ∧
    ¬ (previewOf (scrapeSession fp8 oAll tmp0 page0)).length ≤ 5 :=
  ⟨by decide, by decide⟩

/-- C8 witness: the amended preview shape applied to a concrete session. -/
theorem claim_C8_witness :
    ([(RenderItem.image (str "/tmp/x/a.jpg") (str "a.jpg"), str "http://h/a.jpg"),
      (RenderItem.video (str "/tmp/x/b.mp4") (str "b.mp4"), str "http://h/b.mp4")] :
        List (RenderItem × Str)) =
      ((download_media oAll [str "http://h/a.jpg", str "http://h/b.mp4"] tmp0).saved.zip
          [str "http://h/a.jpg", str "http://h/b.mp4"]).map
        (fun pu => (renderItem pu.1, pu.2)) ∧
    ([(RenderItem.image (str "/tmp/x/a.jpg") (str "a.jpg"), str "http://h/a.jpg"),
      (RenderItem.video (str "/tmp/x/b.mp4") (str "b.mp4"), str "http://h/b.mp4")] :
        List (RenderItem × Str)).length =
      (download_media oAll [str "http://h/a.jpg", str "http://h/b.mp4"] tmp0).saved.length :=
  claim_C8 fp3 oAll tmp0 page0 [str "http://h/a.jpg", str "http://h/b.mp4"]
    [str "a.jpg", str "b.mp4", str "media.zip"]
    [(RenderItem.image (str "/tmp/x/a.jpg") (str "a.jpg"), str "http://h/a.jpg"),
     (RenderItem.video (str "/tmp/x/b.mp4") (str "b.mp4"), str "http://h/b.mp4")]
    (by decide)

/-- C3: evaluation of the archive at the claim's own input, a session whose
destination directory holds exactly the downloaded files a.jpg and b.mp4.
The zip is created inside the directory being archived before the walk, so
the archive holds three entries — a.jpg, b.mp4 and the in-progress media.zip
itself — not the claimed two; media.zip corresponds to no DownloadResult. -/
theorem claim_C3 :
    archiveOf (scrapeSession fp3 oAll tmp0 page0) =
      [str "a.jpg", str "b.mp4", str "media.zip"] ∧
    str "media.zip" ∈ archiveOf (scrapeSession fp3 oAll tmp0 page0) ∧
    (archiveOf (scrapeSession fp3 oAll tmp0 page0)).length = 3 :=
  ⟨by decide, by decide, by decide⟩

/-- C9: evaluation of the preview pairing at a session of three media links
whose second download fails.  `zip(downloaded, media_links)` pairs the file
saved from the third URL (`c.png`, fetched from `http://h/c.png`) with the
second URL, so its displayed Source is `http://h/b.png` — not the URL it was
downloaded from. -/
theorem claim_C9 :
    previewOf (scrapeSession fp9 oFailB tmp0 page0) =
      [(RenderItem.image (str "/tmp/x/a.png") (str "a.png"), str "http://h/a.png"),
       (RenderItem.image (str "/tmp/x/c.png") (str "c.png"), str "http://h/b.png")] ∧
    (str "http://h/b.png" : Str) ≠ str "http://h/c.png" :=
  ⟨by decide, by decide⟩

example : is_media_urlE (str "http://e.com/a.JPG") = .ok true := by decide
example : is_media_urlE (str "http://e.com/v.mp4") = .ok true := by decide
example : is_media_urlE (str "http://e.com/i.svg?x=1") = .ok true := by decide
example : is_media_urlE (str "http://e.com/a.txt") = .ok false := by decide
example : is_media_urlE (str "http://e.com/d.pdf") = .ok false := by decide
example : is_media_urlE (str "http://e.com/file") = .ok false := by decide
example : is_media_urlE (str "http://e.com/a.png#frag") = .ok true := by decide
example : is_media_urlE (str "http://[h/a.png") = .error "Invalid IPv6 URL" := by decide
example : spec_is_media (str "http://e.com/i.svg?x=1") = true := by decide
example : spec_is_media (str "http://e.com/.png") = false := by decide
example : is_media_urlE (str "http://e.com/.png") = .ok false := by decide

end Scraper
